import Mathlib

/-!
# Verification of the Fork plotting scripts' analytical core

This development embeds, as Lean definitions, the two analytical subsystems of
the repository's plotting scripts:

* the mesh-layout resolver and collocation state decoder of
  `scripts/plot_lc_branch.py` (`discover_lc_branches`, `extract_limit_cycle`)
  and `scripts/plot_limit_cycle.py` (`reshape_state_vector`), and
* the subspace-angle analyzer of `scripts/plot_clv_angles.py`
  (`orthonormal_basis`, `principal_angle_degrees`).

Layout arithmetic is over `ℕ`; state-vector entries are modelled as `ℚ`
(the layout logic never computes with the entries, only rearranges them);
the linear algebra of the angle analyzer is modelled over `ℝ`, with the QR
and SVD factorizations that numpy computes supplied as hypotheses
(orthonormality, triangularity, diagonality), and the floating tolerance
`eps` kept as a nonnegative parameter.
-/

namespace Fork

open scoped Matrix

/-! ## Mesh-layout resolver (`discover_lc_branches`, lines 94-111 and 149-155)

The source tries `test_dim in [3, 2, 4, 5]`, `test_ncol in [4, 3, 5]`,
`test_ntst in [20, 40, 10, 80, 30, 60]` in three nested loops, assigning
`ntst, ncol, dim` on the first triple whose expected length
`ntst*dim*(ncol+1)+1` equals the state length and breaking out of the outer
loops as soon as `ntst > 0`. -/

def dimCandidates : List ℕ := [3, 2, 4, 5]

def ncolCandidates : List ℕ := [4, 3, 5]

def ntstCandidates : List ℕ := [20, 40, 10, 80, 30, 60]

/-- A layout triple is stored as `(ntst, ncol, dim)`. -/
def expectedLen (trip : ℕ × ℕ × ℕ) : ℕ :=
  trip.1 * trip.2.2 * (trip.2.1 + 1) + 1

/-- Innermost loop of the search: `for test_ntst in [...]`, assigning and
breaking on the first matching expected length, else leaving `(0, 0, 0)`. -/
def searchNtst (stateLen testDim testNcol : ℕ) : List ℕ → ℕ × ℕ × ℕ
  | [] => (0, 0, 0)
  | testNtst :: rest =>
    if stateLen = testNtst * testDim * (testNcol + 1) + 1 then
      (testNtst, testNcol, testDim)
    else searchNtst stateLen testDim testNcol rest

/-- Middle loop: `for test_ncol in [...]`, breaking once `ntst > 0`. -/
def searchNcol (stateLen testDim : ℕ) : List ℕ → ℕ × ℕ × ℕ
  | [] => (0, 0, 0)
  | testNcol :: rest =>
    let r := searchNtst stateLen testDim testNcol ntstCandidates
    if 0 < r.1 then r else searchNcol stateLen testDim rest

/-- Outer loop: `for test_dim in [...]`, breaking once `ntst > 0`. -/
def searchDim (stateLen : ℕ) : List ℕ → ℕ × ℕ × ℕ
  | [] => (0, 0, 0)
  | testDim :: rest =>
    let r := searchNcol stateLen testDim ncolCandidates
    if 0 < r.1 then r else searchDim stateLen rest

/-- The whole nested search of `discover_lc_branches` (lines 94-106). -/
def inferMeshParams (stateLen : ℕ) : ℕ × ℕ × ℕ :=
  searchDim stateLen dimCandidates

/-- The search grid flattened in the nested priority order: `dim` outermost,
then `ncol`, then `ntst`. -/
def searchGrid : List (ℕ × ℕ × ℕ) :=
  dimCandidates.flatMap fun d =>
    ncolCandidates.flatMap fun c =>
      ntstCandidates.map fun t => (t, c, d)

/-- The comparison performed by the loop body for one candidate triple. -/
def lenMatches (stateLen : ℕ) (trip : ℕ × ℕ × ℕ) : Bool :=
  stateLen == expectedLen trip

/-- The no-metadata resolver path of `discover_lc_branches` (lines 85-111
and the final `if dim > 0` gate on line 155): only states longer than 20
entries are considered limit cycles; on search failure the defaults
`ntst, ncol = 20, 4` are assumed and `dim = (state_len - 1) // (ntst * (ncol + 1))`
is derived by floor division; the record is kept only when `dim > 0`. -/
def resolveNoHint (stateLen : ℕ) : Option (ℕ × ℕ × ℕ) :=
  if 20 < stateLen then
    let r := inferMeshParams stateLen
    let r2 := if r.1 = 0 then (20, 4, (stateLen - 1) / (20 * (4 + 1))) else r
    if 0 < r2.2.2 then some r2 else none
  else none

/-- Dim derivation when metadata supplies `ntst > 0` and `ncol > 0` but no
`dim` (lines 149-153): `dim = (total_state_len - 1) // (ntst * (ncol + 1))`
guarded by `ntst * (ncol + 1) > 0`. -/
def deriveDim (stateLen ntst ncol : ℕ) : ℕ :=
  if 0 < ntst * (ncol + 1) then (stateLen - 1) / (ntst * (ncol + 1)) else 0

/-- Resolver outcome for the metadata-hint path: the derived-`dim` triple is
kept only when `dim > 0` (line 155). -/
def resolveWithHint (stateLen ntst ncol : ℕ) : Option (ℕ × ℕ × ℕ) :=
  let dim := deriveDim stateLen ntst ncol
  if 0 < dim then some (ntst, ncol, dim) else none

/-! ### The nested search returns the first match of the priority grid -/

theorem searchNtst_eq (L d c : ℕ) (ts : List ℕ) :
    searchNtst L d c ts =
      ((ts.map fun t => (t, c, d)).find? (lenMatches L)).getD (0, 0, 0) := by
  induction ts with
  | nil => rfl
  | cons t rest ih =>
    by_cases h : L = t * d * (c + 1) + 1
    · have hb : lenMatches L (t, c, d) = true := by
        simp [lenMatches, expectedLen, h]
      rw [List.map_cons, List.find?_cons_of_pos _ hb]
      simp [searchNtst, h]
    · have hb : lenMatches L (t, c, d) = false := by
        simp [lenMatches, expectedLen, h]
      rw [List.map_cons, List.find?_cons_of_neg _ (by simp [hb])]
      simp [searchNtst, h, ih]

theorem ntst_candidate_pos : ∀ u ∈ ntstCandidates, 0 < u := by decide

theorem searchNcol_eq (L d : ℕ) (cs : List ℕ) :
    searchNcol L d cs =
      ((cs.flatMap fun c => ntstCandidates.map fun t => (t, c, d)).find?
        (lenMatches L)).getD (0, 0, 0) := by
  induction cs with
  | nil => rfl
  | cons c rest ih =>
    simp only [searchNcol, List.flatMap_cons, List.find?_append]
    rw [searchNtst_eq]
    cases hfind : (ntstCandidates.map fun t => (t, c, d)).find? (lenMatches L) with
    | none => simpa using ih
    | some x =>
      have hx : x ∈ ntstCandidates.map fun t => (t, c, d) :=
        List.mem_of_find?_eq_some hfind
      obtain ⟨t, ht, rfl⟩ := List.mem_map.mp hx
      have htpos : 0 < t := ntst_candidate_pos t ht
      simp [htpos]

theorem searchDim_eq (L : ℕ) (ds : List ℕ) :
    searchDim L ds =
      ((ds.flatMap fun d => ncolCandidates.flatMap fun c =>
          ntstCandidates.map fun t => (t, c, d)).find? (lenMatches L)).getD (0, 0, 0) := by
  induction ds with
  | nil => rfl
  | cons d rest ih =>
    simp only [searchDim, List.flatMap_cons, List.find?_append]
    rw [searchNcol_eq]
    cases hfind : ((ncolCandidates.flatMap fun c =>
        ntstCandidates.map fun t => (t, c, d)).find? (lenMatches L)) with
    | none => simpa using ih
    | some x =>
      have hx : x ∈ ncolCandidates.flatMap fun c =>
          ntstCandidates.map fun t => (t, c, d) :=
        List.mem_of_find?_eq_some hfind
      obtain ⟨c, _, hx2⟩ := List.mem_flatMap.mp hx
      obtain ⟨t, ht, rfl⟩ := List.mem_map.mp hx2
      have htpos : 0 < t := ntst_candidate_pos t ht
      simp [htpos]

theorem inferMeshParams_eq_find (L : ℕ) :
    inferMeshParams L = (searchGrid.find? (lenMatches L)).getD (0, 0, 0) :=
  searchDim_eq L dimCandidates

theorem find?_decomp {α : Type} (p : α → Bool) :
    ∀ (l : List α) (a : α), l.find? p = some a →
      ∃ l₁ l₂, l = l₁ ++ a :: l₂ ∧ ∀ b ∈ l₁, p b = false := by
  intro l
  induction l with
  | nil => intro a h; simp at h
  | cons x rest ih =>
    intro a h
    by_cases hx : p x = true
    · rw [List.find?_cons_of_pos _ hx] at h
      obtain rfl : x = a := by injection h
      exact ⟨[], rest, rfl, by simp⟩
    · rw [List.find?_cons_of_neg _ hx] at h
      obtain ⟨l₁, l₂, hdec, hall⟩ := ih a h
      refine ⟨x :: l₁, l₂, by rw [hdec]; rfl, ?_⟩
      intro b hb
      rcases List.mem_cons.mp hb with rfl | hb
      · exact Bool.eq_false_iff.mpr hx
      · exact hall b hb

/-- C1: with no layout hint, the resolver's nested search iterates `dim` over
`[3, 2, 4, 5]`, then `ncol` over `[4, 3, 5]`, then `ntst` over
`[20, 40, 10, 80, 30, 60]`, and whenever at least one triple of that grid
matches the state length, it returns a triple whose expected length
`ntst*dim*(ncol+1)+1` equals the state length and which is the first match in
the nested priority order: everything strictly earlier in the flattened grid
fails to match, so a length compatible with several triples always resolves to
the earliest one. -/
theorem C1_resolver_first_match (L : ℕ) (t : ℕ × ℕ × ℕ)
    (ht : t ∈ searchGrid) (hm : expectedLen t = L) :
    expectedLen (inferMeshParams L) = L ∧
    ∃ l₁ l₂, searchGrid = l₁ ++ inferMeshParams L :: l₂ ∧
      ∀ u ∈ l₁, expectedLen u ≠ L := by
  have hne : searchGrid.find? (lenMatches L) ≠ none := by
    intro hnone
    have := List.find?_eq_none.mp hnone t ht
    simp [lenMatches, hm] at this
  obtain ⟨res, hres⟩ := Option.ne_none_iff_exists.mp hne
  have hIM : inferMeshParams L = res := by
    rw [inferMeshParams_eq_find, ← hres]; rfl
  have hp : lenMatches L res = true := List.find?_some hres.symm
  have hpL : expectedLen res = L := by
    have := Nat.beq_eq.mp (by simpa [lenMatches] using hp)
    omega
  obtain ⟨l₁, l₂, hdec, hall⟩ := find?_decomp (lenMatches L) searchGrid res hres.symm
  refine ⟨by rw [hIM]; exact hpL, l₁, l₂, by rw [hIM]; exact hdec, ?_⟩
  intro u hu
  have hfalse := hall u hu
  simp only [lenMatches, beq_eq_false_iff_ne, ne_eq] at hfalse
  omega

theorem C1_resolver_first_match_witness :
    expectedLen (inferMeshParams 301) = 301 ∧
    ∃ l₁ l₂, searchGrid = l₁ ++ inferMeshParams 301 :: l₂ ∧
      ∀ u ∈ l₁, expectedLen u ≠ 301 :=
  C1_resolver_first_match 301 (20, 4, 3) (by decide) (by decide)

/-! ### Fallback and hint paths of the resolver -/

theorem pos_div_sub_one_iff (a k : ℕ) (hk : 0 < k) :
    0 < (a - 1) / k ↔ k + 1 ≤ a := by
  rw [Nat.pos_iff_ne_zero, ← Nat.one_le_iff_ne_zero, Nat.one_le_div_iff hk]
  omega

/-- C7 (amended): when the state length exceeds 20 and no triple of the search
grid matches, the resolver falls back to `ntst, ncol = 20, 4` and derives
`dim = (len - 1) // (20 * (4 + 1))` by floor division, skipping the record
(the `AmbiguousLayout` outcome) exactly when the floored quotient is zero.
Because the quotient is floored, an inexact division is accepted silently:
the resolver can return a fallback triple whose expected length does not
reproduce the observed state length (see the counterexample at length 150). -/
theorem C7_fallback_floor (L : ℕ) (hL : 20 < L) (hs : (inferMeshParams L).1 = 0) :
    resolveNoHint L =
      if 0 < (L - 1) / (20 * (4 + 1)) then some (20, 4, (L - 1) / (20 * (4 + 1)))
      else none := by
  simp [resolveNoHint, hL, hs]

/-- C7 counterexample: length 150 matches no grid triple, so the fallback
accepts `(20, 4, 1)` even though its expected length `101` is not `150`,
refuting "never silently accepts a triple whose expected length does not
reproduce the observed state length". -/
theorem C7_counterexample :
    resolveNoHint 150 = some (20, 4, 1) ∧ expectedLen (20, 4, 1) ≠ 150 := by
  decide

theorem C7_fallback_floor_witness :
    resolveNoHint 150 =
      if 0 < (150 - 1) / (20 * (4 + 1)) then some (20, 4, (150 - 1) / (20 * (4 + 1)))
      else none :=
  C7_fallback_floor 150 (by decide) (by decide)

/-- C8 (amended): when the hint supplies `ntst` and `ncol` but not `dim`, the
resolver sets `dim = (state_len - 1) // (ntst * (ncol + 1))` by floor division
and accepts exactly when this floored quotient is positive, i.e. exactly when
`state_len ≥ ntst * (ncol + 1) + 1`; it does not require the length equation
`state_len = ntst * dim * (ncol + 1) + 1` to be reproduced exactly (see the
counterexample at length 150). -/
theorem C8_hint_floor_dim (L t c : ℕ) (ht : 0 < t) (_hc : 0 < c) :
    (resolveWithHint L t c = some (t, c, (L - 1) / (t * (c + 1))) ↔
        t * (c + 1) + 1 ≤ L) ∧
    (resolveWithHint L t c = none ↔ L < t * (c + 1) + 1) := by
  have hpos : 0 < t * (c + 1) := Nat.mul_pos ht (Nat.succ_pos c)
  have hdd : deriveDim L t c = (L - 1) / (t * (c + 1)) := by simp [deriveDim, hpos]
  have hiff := pos_div_sub_one_iff L (t * (c + 1)) hpos
  by_cases hcase : t * (c + 1) + 1 ≤ L
  · have hd : 0 < (L - 1) / (t * (c + 1)) := hiff.mpr hcase
    simp only [resolveWithHint, hdd, if_pos hd]
    exact ⟨by simp [hcase], by simp [Nat.not_lt.mpr hcase]⟩
  · have hd : ¬ 0 < (L - 1) / (t * (c + 1)) := fun hh => hcase (hiff.mp hh)
    simp only [resolveWithHint, hdd, if_neg hd]
    exact ⟨by simp [hcase], by simp [Nat.not_le.mp hcase]⟩

/-- C8 counterexample: with hint `ntst = 20, ncol = 4` and state length 150,
the resolver accepts `dim = 1` although `20 * 1 * (4 + 1) + 1 = 101 ≠ 150`:
the derived `dim` is accepted without the equation being reproduced exactly. -/
theorem C8_counterexample :
    resolveWithHint 150 20 4 = some (20, 4, 1) ∧ expectedLen (20, 4, 1) ≠ 150 := by
  decide

theorem C8_hint_floor_dim_witness :
    (resolveWithHint 150 20 4 = some (20, 4, (150 - 1) / (20 * (4 + 1))) ↔
        20 * (4 + 1) + 1 ≤ 150) ∧
    (resolveWithHint 150 20 4 = none ↔ 150 < 20 * (4 + 1) + 1) :=
  C8_hint_floor_dim 150 20 4 (by decide) (by decide)

/-! ## Collocation state decoder

`extract_limit_cycle` (`plot_lc_branch.py`, lines 229-281) and
`reshape_state_vector` (`plot_limit_cycle.py`, lines 95-129). State entries
are modelled as `ℚ`; `np.array(xs).reshape(rows, dim)` becomes `reshapeRows`. -/

/-- `np.array(l).reshape(rows, dim)`: row `i` is the `dim` entries starting at
offset `i * dim`. Faithful whenever `l` has exactly `rows * dim` entries, which
holds at every call site below. -/
def reshapeRows (rows dim : ℕ) (l : List ℚ) : List (List ℚ) :=
  (List.range rows).map fun i => (l.drop (i * dim)).take dim

/-- The mesh-point count actually used by `extract_limit_cycle`: `ntst`, or
`ntst + 1` after the fallback at lines 246-249 when the state is shorter than
`(ntst + ntst*ncol)*dim + 1`. -/
def meshPointsEff (state : List ℚ) (ntst ncol dim : ℕ) : ℕ :=
  if state.length < (ntst + ntst * ncol) * dim + 1 then ntst + 1 else ntst

/-- The interleaving loop of `extract_limit_cycle` (lines 263-272): for each
`i < min ntst meshPoints`, emit `mesh_data[i]` then the stage points
`stage_data[i*ncol+j]` that exist, and finally `mesh_data[-1]` when
`meshPoints > ntst`. -/
def interleaveProfile (meshData stageData : List (List ℚ))
    (ntst ncol meshPoints : ℕ) : List (List ℚ) :=
  ((List.range (min ntst meshPoints)).flatMap fun i =>
    meshData.getD i [] ::
      ((List.range ncol).filterMap fun j =>
        if i * ncol + j < stageData.length then some (stageData.getD (i * ncol + j) [])
        else none)) ++
  (if ntst < meshPoints then [meshData.getLastD []] else [])

/-- `extract_limit_cycle(state, ntst, ncol, dim)` (lines 229-281): slice the
mesh block (with the `ntst + 1` fallback), return an empty profile when even
the mesh block plus one trailing scalar is missing, interleave with the stage
block when it is complete, otherwise keep the mesh block alone, and close the
cycle by appending `profile[0:1]`. -/
def extract_limit_cycle (state : List ℚ) (ntst ncol dim : ℕ) : List (List ℚ) :=
  let numStages := ntst * ncol
  let stageDataLen := numStages * dim
  let meshPoints := meshPointsEff state ntst ncol dim
  let meshDataLen := meshPoints * dim
  if state.length < meshDataLen + 1 then []
  else
    let meshData := reshapeRows meshPoints dim (state.take meshDataLen)
    let profile :=
      if meshDataLen + stageDataLen + 1 ≤ state.length then
        interleaveProfile meshData
          (reshapeRows numStages dim ((state.drop meshDataLen).take stageDataLen))
          ntst ncol meshPoints
      else meshData
    profile ++ profile.take 1

/-- Error outcomes of `reshape_state_vector`: the `ValueError` for
non-positive mesh/dimension and the `ValueError` for an insufficient state
length (the spec's `ShortState`). -/
inductive DecodeError where
  | invalidParams
  | shortState
deriving DecidableEq

/-- `reshape_state_vector(point_state, dim, mesh_points, degree)`
(`plot_limit_cycle.py`, lines 95-129): raise on `mesh_points * dim ≤ 0`, infer
a missing or non-positive degree from the leftover length, default it to 1,
raise when the state is shorter than `base + stage_block + 1`, and otherwise
return the reshaped mesh block together with the trailing period — without
appending any closing point. -/
def reshape_state_vector (point_state : List ℚ) (dim mesh_points : ℕ)
    (degree : Option ℕ) : Except DecodeError (List (List ℚ) × ℚ) :=
  let base := mesh_points * dim
  if base = 0 then Except.error DecodeError.invalidParams
  else
    let d0 := degree.getD 0
    let d1 :=
      if d0 = 0 then
        let remaining := point_state.length - base - 1
        if 0 < remaining then
          let inferred := remaining / (mesh_points * dim)
          if 0 < inferred then inferred else d0
        else d0
      else d0
    let d2 := if d1 = 0 then 1 else d1
    let stage_block := mesh_points * d2 * dim
    let expected := base + stage_block + 1
    if point_state.length < expected then Except.error DecodeError.shortState
    else Except.ok (reshapeRows mesh_points dim (point_state.take base),
      point_state.getD (expected - 1) 0)

/-- Row `i` of the mesh block, read directly from the flat state. -/
def meshRow (state : List ℚ) (dim i : ℕ) : List ℚ :=
  (state.drop (i * dim)).take dim

/-- Stage point `k`, read directly from the flat state after the mesh block. -/
def stageRow (state : List ℚ) (ntst dim k : ℕ) : List ℚ :=
  (state.drop (ntst * dim + k * dim)).take dim

/-- The interleaved profile as the specification words it: for each mesh
interval `i` in order, `meshPoint_i` followed by its `ncol` stage points
`stagePoint_{i*ncol+j}`, `j = 0 .. ncol-1`. -/
def specInterleaved (state : List ℚ) (ntst ncol dim : ℕ) : List (List ℚ) :=
  (List.range ntst).flatMap fun i =>
    meshRow state dim i ::
      ((List.range ncol).map fun j => stageRow state ntst dim (i * ncol + j))

/-! ### Decoder lemmas -/

theorem reshapeRows_length (rows dim : ℕ) (l : List ℚ) :
    (reshapeRows rows dim l).length = rows := by
  simp [reshapeRows]

theorem reshapeRows_getD (rows dim : ℕ) (l : List ℚ) (i : ℕ) (hi : i < rows) :
    (reshapeRows rows dim l).getD i [] = (l.drop (i * dim)).take dim := by
  simp [reshapeRows, List.getD_eq_getElem?_getD, List.getElem?_map,
    List.getElem?_range hi]

theorem take_drop_take (l : List ℚ) (m k dim : ℕ) (h : k + dim ≤ m) :
    ((l.take m).drop k).take dim = (l.drop k).take dim := by
  rw [List.drop_take, List.take_take]
  congr 1
  omega

theorem row_length (l : List ℚ) (k dim : ℕ) (h : k + dim ≤ l.length) :
    ((l.drop k).take dim).length = dim := by
  simp [List.length_take, List.length_drop]
  omega

theorem filterMap_eq_map_of {α β : Type} (l : List α) (f : α → Option β)
    (g : α → β) (h : ∀ a ∈ l, f a = some (g a)) : l.filterMap f = l.map g := by
  induction l with
  | nil => rfl
  | cons x rest ih =>
    simp only [List.filterMap_cons, h x (List.mem_cons_self x rest), List.map_cons]
    rw [ih fun a ha => h a (List.mem_cons_of_mem x ha)]

theorem flatMap_congr_of {α β : Type} (l : List α) (f g : α → List β)
    (h : ∀ a ∈ l, f a = g a) : l.flatMap f = l.flatMap g := by
  induction l with
  | nil => rfl
  | cons x rest ih =>
    rw [List.flatMap_cons, List.flatMap_cons, h x (List.mem_cons_self x rest),
      ih fun a ha => h a (List.mem_cons_of_mem x ha)]

theorem sum_map_const {α : Type} (l : List α) (c : ℕ) :
    (l.map fun _ => c).sum = l.length * c := by
  induction l with
  | nil => simp
  | cons x rest ih => simp [ih, Nat.succ_mul, Nat.add_comm]

/-- On a state at least as long as `ntst*dim*(ncol+1)+1`, `extract_limit_cycle`
produces exactly the interleaved profile followed by its closing point. -/
theorem extract_full_eq (state : List ℚ) (ntst ncol dim : ℕ)
    (h : ntst * dim * (ncol + 1) + 1 ≤ state.length) :
    extract_limit_cycle state ntst ncol dim =
      specInterleaved state ntst ncol dim ++
        (specInterleaved state ntst ncol dim).take 1 := by
  have hfull : (ntst + ntst * ncol) * dim = ntst * dim * (ncol + 1) := by ring
  have hmp : meshPointsEff state ntst ncol dim = ntst := by
    unfold meshPointsEff
    rw [hfull, if_neg (Nat.not_lt.mpr h)]
  have hmono : ntst * dim ≤ ntst * dim * (ncol + 1) :=
    Nat.le_mul_of_pos_right _ (Nat.succ_pos ncol)
  have hstage : ntst * dim + ntst * ncol * dim = ntst * dim * (ncol + 1) := by ring
  simp only [extract_limit_cycle, hmp]
  rw [if_neg (by omega : ¬ state.length < ntst * dim + 1),
    if_pos (by omega : ntst * dim + ntst * ncol * dim + 1 ≤ state.length)]
  suffices hsuff : interleaveProfile
      (reshapeRows ntst dim (state.take (ntst * dim)))
      (reshapeRows (ntst * ncol) dim ((state.drop (ntst * dim)).take (ntst * ncol * dim)))
      ntst ncol ntst = specInterleaved state ntst ncol dim by
    rw [hsuff]
  unfold interleaveProfile specInterleaved
  rw [Nat.min_self, if_neg (lt_irrefl ntst), List.append_nil]
  apply flatMap_congr_of
  intro i hi
  have hi' : i < ntst := List.mem_range.mp hi
  have hrow : i * dim + dim ≤ ntst * dim := by
    have h1 : (i + 1) * dim ≤ ntst * dim := Nat.mul_le_mul_right dim hi'
    have h2 : (i + 1) * dim = i * dim + dim := by ring
    omega
  congr 1
  · rw [reshapeRows_getD _ _ _ _ hi', take_drop_take _ _ _ _ hrow]
    rfl
  · rw [reshapeRows_length]
    apply filterMap_eq_map_of
    intro j hj
    have hj' : j < ncol := List.mem_range.mp hj
    have hk : i * ncol + j + 1 ≤ ntst * ncol := by
      have h1 : (i + 1) * ncol ≤ ntst * ncol := Nat.mul_le_mul_right ncol hi'
      have h2 : (i + 1) * ncol = i * ncol + ncol := by ring
      omega
    rw [if_pos (by omega : i * ncol + j < ntst * ncol)]
    congr 1
    rw [reshapeRows_getD _ _ _ _ (by omega)]
    have hsrow : (i * ncol + j) * dim + dim ≤ ntst * ncol * dim := by
      have h1 : (i * ncol + j + 1) * dim ≤ ntst * ncol * dim :=
        Nat.mul_le_mul_right dim hk
      have h2 : (i * ncol + j + 1) * dim = (i * ncol + j) * dim + dim := by ring
      omega
    rw [take_drop_take _ _ _ _ hsrow, List.drop_drop]
    rfl

/-- C2: for a flat mesh+stage state of length at least `ntst*dim*(ncol+1)+1`,
the decoder emits, for each mesh interval `i` in order, `meshPoint_i` followed
by its `ncol` stage points `stagePoint_{i*ncol+j}`, `j = 0..ncol-1`, giving,
before the closing point, exactly `ntst + ntst*ncol` points of dimension
`dim`. -/
theorem C2_decode_interleaves (state : List ℚ) (ntst ncol dim : ℕ)
    (h : ntst * dim * (ncol + 1) + 1 ≤ state.length) :
    extract_limit_cycle state ntst ncol dim =
      specInterleaved state ntst ncol dim ++
        (specInterleaved state ntst ncol dim).take 1 ∧
    (specInterleaved state ntst ncol dim).length = ntst + ntst * ncol ∧
    ∀ p ∈ specInterleaved state ntst ncol dim, p.length = dim := by
  refine ⟨extract_full_eq state ntst ncol dim h, ?_, ?_⟩
  · unfold specInterleaved
    rw [List.length_flatMap]
    have hmap : ((List.range ntst).map (List.length ∘ fun i =>
        meshRow state dim i ::
          ((List.range ncol).map fun j => stageRow state ntst dim (i * ncol + j)))) =
        (List.range ntst).map fun _ => ncol + 1 := by
      apply List.map_congr_left
      intro i _
      simp
    rw [hmap, sum_map_const, List.length_range]
    ring
  · intro p hp
    unfold specInterleaved at hp
    obtain ⟨i, hi, hp⟩ := List.mem_flatMap.mp hp
    have hi' : i < ntst := List.mem_range.mp hi
    have hmono : ntst * dim ≤ ntst * dim * (ncol + 1) :=
      Nat.le_mul_of_pos_right _ (Nat.succ_pos ncol)
    have hrow : i * dim + dim ≤ ntst * dim := by
      have h1 : (i + 1) * dim ≤ ntst * dim := Nat.mul_le_mul_right dim hi'
      have h2 : (i + 1) * dim = i * dim + dim := by ring
      omega
    rcases List.mem_cons.mp hp with rfl | hp
    · exact row_length _ _ _ (by omega)
    · obtain ⟨j, hj, rfl⟩ := List.mem_map.mp hp
      have hj' : j < ncol := List.mem_range.mp hj
      have hk : i * ncol + j + 1 ≤ ntst * ncol := by
        have h1 : (i + 1) * ncol ≤ ntst * ncol := Nat.mul_le_mul_right ncol hi'
        have h2 : (i + 1) * ncol = i * ncol + ncol := by ring
        omega
      have hsrow : (i * ncol + j) * dim + dim ≤ ntst * ncol * dim := by
        have h1 : (i * ncol + j + 1) * dim ≤ ntst * ncol * dim :=
          Nat.mul_le_mul_right dim hk
        have h2 : (i * ncol + j + 1) * dim = (i * ncol + j) * dim + dim := by ring
        omega
      have hsum : ntst * dim + ntst * ncol * dim = ntst * dim * (ncol + 1) := by
        ring
      exact row_length _ _ _ (by omega)

theorem C2_decode_interleaves_witness :
    extract_limit_cycle [1, 2, 3, 4, 5, 6, 7] 2 2 1 =
      specInterleaved [1, 2, 3, 4, 5, 6, 7] 2 2 1 ++
        (specInterleaved [1, 2, 3, 4, 5, 6, 7] 2 2 1).take 1 ∧
    (specInterleaved [1, 2, 3, 4, 5, 6, 7] 2 2 1).length = 2 + 2 * 2 ∧
    ∀ p ∈ specInterleaved [1, 2, 3, 4, 5, 6, 7] 2 2 1, p.length = 1 :=
  C2_decode_interleaves [1, 2, 3, 4, 5, 6, 7] 2 2 1 (by decide)

/-! ### Degraded paths of `extract_limit_cycle` -/

theorem extract_empty_eq (state : List ℚ) (ntst ncol dim : ℕ)
    (h : state.length < meshPointsEff state ntst ncol dim * dim + 1) :
    extract_limit_cycle state ntst ncol dim = [] := by
  simp only [extract_limit_cycle]
  rw [if_pos h]

theorem extract_meshonly_eq (state : List ℚ) (ntst ncol dim : ℕ)
    (h1 : meshPointsEff state ntst ncol dim * dim + 1 ≤ state.length)
    (h2 : state.length <
      meshPointsEff state ntst ncol dim * dim + ntst * ncol * dim + 1) :
    extract_limit_cycle state ntst ncol dim =
      reshapeRows (meshPointsEff state ntst ncol dim) dim
          (state.take (meshPointsEff state ntst ncol dim * dim)) ++
        (reshapeRows (meshPointsEff state ntst ncol dim) dim
          (state.take (meshPointsEff state ntst ncol dim * dim))).take 1 := by
  simp only [extract_limit_cycle]
  rw [if_neg (Nat.not_lt.mpr h1), if_neg (by omega)]

theorem meshPointsEff_ge (state : List ℚ) (ntst ncol dim : ℕ) :
    ntst ≤ meshPointsEff state ntst ncol dim := by
  unfold meshPointsEff
  split <;> omega

theorem reshapeRows_take_one (rows dim : ℕ) (l : List ℚ) (h : 0 < rows) :
    (reshapeRows rows dim l).take 1 = [l.take dim] := by
  obtain ⟨r, rfl⟩ : ∃ r, rows = r + 1 := ⟨rows - 1, by omega⟩
  simp [reshapeRows, List.range_succ_eq_map]

/-- Every run of `extract_limit_cycle` returns either the empty profile or a
nonempty profile explicitly closed by a copy of its first point. -/
theorem extract_shape (state : List ℚ) (ntst ncol dim : ℕ) :
    extract_limit_cycle state ntst ncol dim = [] ∨
    ∃ P, P ≠ [] ∧ extract_limit_cycle state ntst ncol dim = P ++ P.take 1 := by
  simp only [extract_limit_cycle]
  split
  · exact Or.inl rfl
  · cases hq : (if meshPointsEff state ntst ncol dim * dim + ntst * ncol * dim + 1 ≤
        state.length then
        interleaveProfile
          (reshapeRows (meshPointsEff state ntst ncol dim) dim
            (state.take (meshPointsEff state ntst ncol dim * dim)))
          (reshapeRows (ntst * ncol) dim
            ((state.drop (meshPointsEff state ntst ncol dim * dim)).take (ntst * ncol * dim)))
          ntst ncol (meshPointsEff state ntst ncol dim)
      else
        reshapeRows (meshPointsEff state ntst ncol dim) dim
          (state.take (meshPointsEff state ntst ncol dim * dim))) with
    | nil => exact Or.inl rfl
    | cons a t => exact Or.inr ⟨a :: t, List.cons_ne_nil a t, rfl⟩

theorem specInterleaved_length (state : List ℚ) (ntst ncol dim : ℕ) :
    (specInterleaved state ntst ncol dim).length = ntst + ntst * ncol := by
  unfold specInterleaved
  rw [List.length_flatMap]
  have hmap : ((List.range ntst).map (List.length ∘ fun i =>
      meshRow state dim i ::
        ((List.range ncol).map fun j => stageRow state ntst dim (i * ncol + j)))) =
      (List.range ntst).map fun _ => ncol + 1 := by
    apply List.map_congr_left
    intro i _
    simp
  rw [hmap, sum_map_const, List.length_range]
  ring

/-- C10: `extract_limit_cycle` is total for positive layout parameters: it
returns the empty profile exactly when the state cannot supply even the
(fallback-adjusted) mesh block plus one trailing scalar; it returns the
non-interleaved mesh block closed by a copy of the first point when the state
holds the full mesh block but an incomplete stage block; and it returns a
nonempty profile whenever the state holds the complete mesh and stage
blocks. -/
theorem C10_extract_total (state : List ℚ) (ntst ncol dim : ℕ)
    (ht : 0 < ntst) (_hc : 0 < ncol) (_hd : 0 < dim) :
    (state.length < meshPointsEff state ntst ncol dim * dim + 1 →
      extract_limit_cycle state ntst ncol dim = []) ∧
    (meshPointsEff state ntst ncol dim * dim + 1 ≤ state.length →
      state.length <
        meshPointsEff state ntst ncol dim * dim + ntst * ncol * dim + 1 →
      extract_limit_cycle state ntst ncol dim =
        reshapeRows (meshPointsEff state ntst ncol dim) dim
            (state.take (meshPointsEff state ntst ncol dim * dim)) ++
          [state.take dim]) ∧
    (ntst * dim * (ncol + 1) + 1 ≤ state.length →
      extract_limit_cycle state ntst ncol dim ≠ []) := by
  have hmp : 0 < meshPointsEff state ntst ncol dim :=
    lt_of_lt_of_le ht (meshPointsEff_ge state ntst ncol dim)
  refine ⟨extract_empty_eq state ntst ncol dim, ?_, ?_⟩
  · intro h1 h2
    rw [extract_meshonly_eq state ntst ncol dim h1 h2,
      reshapeRows_take_one _ _ _ hmp, List.take_take]
    have : dim ⊓ (meshPointsEff state ntst ncol dim * dim) = dim := by
      have := Nat.le_mul_of_pos_left dim hmp
      omega
    rw [this]
  · intro h heq
    rw [extract_full_eq state ntst ncol dim h] at heq
    rcases List.append_eq_nil.mp heq with ⟨hnil, _⟩
    have := specInterleaved_length state ntst ncol dim
    rw [hnil] at this
    simp at this
    omega

theorem C10_extract_total_witness :
    extract_limit_cycle [1, 2, 3, 4, 5, 6] 2 2 1 =
      reshapeRows (meshPointsEff [1, 2, 3, 4, 5, 6] 2 2 1) 1
          (([1, 2, 3, 4, 5, 6] : List ℚ).take
            (meshPointsEff [1, 2, 3, 4, 5, 6] 2 2 1 * 1)) ++
        [([1, 2, 3, 4, 5, 6] : List ℚ).take 1] :=
  (C10_extract_total [1, 2, 3, 4, 5, 6] 2 2 1 (by decide) (by decide)
    (by decide)).2.1 (by decide) (by decide)

/-- C4 (amended): any nonempty profile returned by `extract_limit_cycle` is
explicitly closed — its last point equals its first point, a copy of the first
point having been appended (line 279). `reshape_state_vector`
(`plot_limit_cycle.py`, lines 127-129), by contrast, returns the mesh block
without appending a closing point, so its decoded profile need not end with
its first point (see the counterexample). -/
theorem C4_closure (state : List ℚ) (ntst ncol dim : ℕ)
    (h : extract_limit_cycle state ntst ncol dim ≠ []) :
    (extract_limit_cycle state ntst ncol dim).head? =
      (extract_limit_cycle state ntst ncol dim).getLast? := by
  rcases extract_shape state ntst ncol dim with he | ⟨P, hne, he⟩
  · exact absurd he h
  · rw [he]
    obtain ⟨a, t, rfl⟩ : ∃ a t, P = a :: t := by
      cases P with
      | nil => exact absurd rfl hne
      | cons a t => exact ⟨a, t, rfl⟩
    have h1 : List.take 1 (a :: t) = [a] := rfl
    rw [h1, List.getLast?_concat]
    rfl

/-- C4 counterexample: `reshape_state_vector` decodes `[1, 2, 3, 4, 5]` with
`dim = 1`, `mesh_points = 2`, `degree = 1` to the profile `[[1], [2]]` (plus
period `5`), whose last point `[2]` differs from its first point `[1]`: no
copy of the first point is appended in this decoder. -/
theorem C4_counterexample :
    reshape_state_vector [1, 2, 3, 4, 5] 1 2 (some 1) =
      Except.ok ([[1], [2]], 5) ∧
    ([[1], [2]] : List (List ℚ)).getLast? ≠ ([[1], [2]] : List (List ℚ)).head? :=
  ⟨rfl, by decide⟩

theorem C4_closure_witness :
    extract_limit_cycle [1, 2, 3] 1 1 1 ≠ [] ∧
    (extract_limit_cycle [1, 2, 3] 1 1 1).head? =
      (extract_limit_cycle [1, 2, 3] 1 1 1).getLast? :=
  ⟨by decide, C4_closure [1, 2, 3] 1 1 1 (by decide)⟩

/-- C5 (amended): `reshape_state_vector` (with its degree supplied and
positive) fails with `ShortState` on every state shorter than
`ntst*dim + ntst*ncol*dim + 1` and never returns a partial profile;
`extract_limit_cycle`, by contrast, never fails on a short state — it
degrades, returning either the empty profile or a (possibly mesh-only)
closed profile (see the counterexample for a one-element-short state). -/
theorem C5_short_state :
    (∀ (state : List ℚ) (ntst ncol dim : ℕ), 0 < ntst → 0 < ncol → 0 < dim →
      state.length < ntst * dim + ntst * ncol * dim + 1 →
      reshape_state_vector state dim ntst (some ncol) =
        Except.error DecodeError.shortState) ∧
    (∀ (state : List ℚ) (ntst ncol dim : ℕ),
      extract_limit_cycle state ntst ncol dim = [] ∨
      ∃ P, P ≠ [] ∧ extract_limit_cycle state ntst ncol dim = P ++ P.take 1) := by
  constructor
  · intro state ntst ncol dim ht hc hd hlen
    have hbase : ¬ ntst * dim = 0 := by positivity
    have hc0 : ¬ ncol = 0 := by omega
    simp only [reshape_state_vector, Option.getD_some]
    rw [if_neg hbase, if_neg hc0, if_neg hc0, if_pos hlen]
  · exact fun state ntst ncol dim => extract_shape state ntst ncol dim

/-- C5 counterexample: the layout `(ntst, ncol, dim) = (2, 2, 1)` requires
`2*1*(2+1)+1 = 7` entries; on the one-element-short state `[1..6]`,
`extract_limit_cycle` does not fail — it returns the partial (mesh-only,
reinterpreted with `ntst+1` mesh points) profile `[[1], [2], [3], [1]]`. -/
theorem C5_counterexample :
    extract_limit_cycle [1, 2, 3, 4, 5, 6] 2 2 1 = [[1], [2], [3], [1]] ∧
    ([1, 2, 3, 4, 5, 6] : List ℚ).length + 1 = 2 * 1 * (2 + 1) + 1 := by
  exact ⟨by decide, by decide⟩

theorem C5_short_state_witness :
    reshape_state_vector [0] 1 1 (some 1) = Except.error DecodeError.shortState :=
  C5_short_state.1 [0] 1 1 1 (by decide) (by decide) (by decide) (by decide)

/-! ## Subspace angle analyzer (`plot_clv_angles.py`, lines 100-122)

`orthonormal_basis` and `principal_angle_degrees` are floating-point linear
algebra; the model lives over `ℝ` with the machine epsilon kept as a
nonnegative parameter `eps` and the QR and SVD factorizations that numpy
computes supplied as data constrained by their defining properties. -/

/-- `np.abs(r).max()` over all entries of `r`. Folding `max` from `0` is exact
because every `|r i j|` is nonnegative. -/
noncomputable def maxAbsEntries {k n : ℕ} (r : Matrix (Fin k) (Fin n) ℝ) : ℝ :=
  ((List.finRange k).flatMap fun i => (List.finRange n).map fun j => |r i j|).foldr max 0

/-- The rank tolerance of `orthonormal_basis` (line 106):
`np.max(matrix.shape) * eps * np.abs(r).max()` for an input matrix of shape
`m × n`. -/
noncomputable def qrKeepTol (m : ℕ) {n : ℕ} (eps : ℝ)
    (r : Matrix (Fin n) (Fin n) ℝ) : ℝ :=
  ((max m n : ℕ) : ℝ) * eps * maxAbsEntries r

/-- The retained column indices, `keep = np.abs(np.diag(r)) > tol`
(line 107). -/
noncomputable def keptIndices {n : ℕ} (r : Matrix (Fin n) (Fin n) ℝ)
    (tol : ℝ) : List (Fin n) :=
  (List.finRange n).filter fun j => decide (tol < |r j j|)

/-- `orthonormal_basis` (lines 100-110) after the reduced QR factorization
`matrix = q @ r`: drop each basis column whose diagonal factor is within
tolerance, fail (`none`, the `DegenerateSubspace` error) when every column is
dropped, and otherwise return the retained columns `q[:, keep]`. -/
noncomputable def orthonormal_basis {m n : ℕ} (eps : ℝ)
    (q : Matrix (Fin m) (Fin n) ℝ) (r : Matrix (Fin n) (Fin n) ℝ) :
    Option (List (Fin m → ℝ)) :=
  let tol := qrKeepTol m eps r
  if keptIndices r tol = [] then none
  else some ((keptIndices r tol).map fun j => fun i => q i j)

/-! ### C3: tolerance-based column dropping -/

theorem foldr_max_nonneg (l : List ℝ) : 0 ≤ l.foldr max 0 := by
  induction l with
  | nil => exact le_refl 0
  | cons x rest ih => exact le_trans ih (le_max_right x _)

theorem maxAbsEntries_nonneg {k n : ℕ} (r : Matrix (Fin k) (Fin n) ℝ) :
    0 ≤ maxAbsEntries r :=
  foldr_max_nonneg _

theorem qrKeepTol_nonneg (m : ℕ) {n : ℕ} (eps : ℝ) (heps : 0 ≤ eps)
    (r : Matrix (Fin n) (Fin n) ℝ) : 0 ≤ qrKeepTol m eps r :=
  mul_nonneg (mul_nonneg (Nat.cast_nonneg _) heps) (maxAbsEntries_nonneg r)

theorem mem_keptIndices_iff {n : ℕ} (r : Matrix (Fin n) (Fin n) ℝ) (tol : ℝ)
    (j : Fin n) : j ∈ keptIndices r tol ↔ tol < |r j j| := by
  simp [keptIndices, List.mem_filter]

theorem filter_length_lt_of_not_mem {α : Type} (l : List α) (p : α → Bool)
    (a : α) (hmem : a ∈ l) (hnot : a ∉ l.filter p) :
    (l.filter p).length < l.length := by
  rcases Nat.lt_or_ge (l.filter p).length l.length with h | h
  · exact h
  · exfalso
    have hsub : (l.filter p).Sublist l := List.filter_sublist l
    have hlen : (l.filter p).length = l.length := le_antisymm hsub.length_le h
    rw [hsub.eq_of_length hlen] at hnot
    exact hnot hmem

/-- C3: for an input matrix with at least one column, factored as `A = q r`
with `q` orthonormal-columned and `r` upper triangular, `orthonormal_basis`
keeps exactly the columns whose QR diagonal factor exceeds the tolerance;
a zero column of `A` is always dropped, so the basis shrinks, and likewise
the later of two identical columns; the `DegenerateSubspace` failure occurs
exactly when every column is dropped. -/
theorem C3_qr_column_dropping {m n : ℕ} (A q : Matrix (Fin m) (Fin n) ℝ)
    (r : Matrix (Fin n) (Fin n) ℝ) (eps : ℝ)
    (hA : A = q * r) (hq : qᵀ * q = 1)
    (htri : ∀ i j : Fin n, (j : ℕ) < (i : ℕ) → r i j = 0)
    (heps : 0 ≤ eps) (_hn : 0 < n) :
    (∀ j : Fin n,
      j ∈ keptIndices r (qrKeepTol m eps r) ↔ qrKeepTol m eps r < |r j j|) ∧
    (∀ c : Fin n, (∀ i, A i c = 0) →
      c ∉ keptIndices r (qrKeepTol m eps r) ∧
      (keptIndices r (qrKeepTol m eps r)).length < n) ∧
    (∀ c c' : Fin n, c < c' → (∀ i, A i c = A i c') →
      c' ∉ keptIndices r (qrKeepTol m eps r) ∧
      (keptIndices r (qrKeepTol m eps r)).length < n) ∧
    (orthonormal_basis eps q r = none ↔
      ∀ j : Fin n, |r j j| ≤ qrKeepTol m eps r) := by
  have htol : 0 ≤ qrKeepTol m eps r := qrKeepTol_nonneg m eps heps r
  have hr : r = qᵀ * A := by rw [hA, ← Matrix.mul_assoc, hq, Matrix.one_mul]
  have hcol : ∀ (c i : Fin n), r i c = ∑ x, q x i * A x c := by
    intro c i
    rw [hr]
    simp [Matrix.mul_apply, Matrix.transpose_apply]
  have hdropped : ∀ c : Fin n, r c c = 0 →
      c ∉ keptIndices r (qrKeepTol m eps r) ∧
      (keptIndices r (qrKeepTol m eps r)).length < n := by
    intro c hrc
    have hnot : c ∉ keptIndices r (qrKeepTol m eps r) := by
      rw [mem_keptIndices_iff, hrc, abs_zero]
      exact not_lt.mpr htol
    have hlt := filter_length_lt_of_not_mem (List.finRange n)
      (fun j => decide (qrKeepTol m eps r < |r j j|)) c (List.mem_finRange c) hnot
    rw [List.length_finRange] at hlt
    exact ⟨hnot, hlt⟩
  refine ⟨fun j => mem_keptIndices_iff r _ j, ?_, ?_, ?_⟩
  · intro c hc
    apply hdropped
    rw [hcol c c]
    simp [hc]
  · intro c c' hlt hcc
    apply hdropped
    have h1 : r c' c' = r c' c := by
      rw [hcol c' c', hcol c c']
      exact Finset.sum_congr rfl fun x _ => by rw [← hcc x]
    rw [h1]
    exact htri c' c hlt
  · have hob : orthonormal_basis eps q r = none ↔
        keptIndices r (qrKeepTol m eps r) = [] := by
      simp only [orthonormal_basis]
      constructor
      · intro h
        by_contra hne
        rw [if_neg hne] at h
        exact Option.some_ne_none _ h
      · intro h
        rw [if_pos h]
    rw [hob, List.eq_nil_iff_forall_not_mem]
    constructor
    · intro hall j
      have hj := hall j
      rw [mem_keptIndices_iff] at hj
      exact not_lt.mp hj
    · intro hall j hj
      rw [mem_keptIndices_iff] at hj
      exact absurd hj (not_lt.mpr (hall j))

theorem C3_qr_column_dropping_witness :
    (1 : Fin 2) ∉ keptIndices !![(1 : ℝ), 1; 0, 0]
      (qrKeepTol 2 0 !![(1 : ℝ), 1; 0, 0]) ∧
    (keptIndices !![(1 : ℝ), 1; 0, 0]
      (qrKeepTol 2 0 !![(1 : ℝ), 1; 0, 0])).length < 2 :=
  (C3_qr_column_dropping !![(1 : ℝ), 1; 0, 0] 1 !![(1 : ℝ), 1; 0, 0] 0
    (by rw [Matrix.one_mul]) (by simp)
    (by intro i j h; fin_cases i <;> fin_cases j <;> simp_all)
    le_rfl (by norm_num)).2.2.1 0 1 (by decide)
    (by intro i; fin_cases i <;> simp)

/-! ### Principal angle computation (lines 113-122) -/

/-- `np.clip(x, lo, hi)`. -/
noncomputable def clip (x lo hi : ℝ) : ℝ := min (max x lo) hi

/-- `np.max(np.abs(sv))`; folding `max` from `0` is exact for nonempty `sv`
since every `|x|` is nonnegative. -/
noncomputable def maxAbsList (sv : List ℝ) : ℝ :=
  (sv.map fun x => |x|).foldr max 0

/-- Lines 119-122 of `principal_angle_degrees`: `90.0` when no singular
values exist, otherwise `math.degrees(math.acos(np.clip(max |sv|, -1, 1)))`. -/
noncomputable def principal_angle_degrees (sv : List ℝ) : ℝ :=
  if sv.isEmpty then 90
  else Real.arccos (clip (maxAbsList sv) (-1) 1) * (180 / Real.pi)

/-- The cross Gram matrix `cu_basis.T @ ss_basis` (line 117) at the matrix
level, between retained bases with `ra` and `rb` columns. -/
def gram {d ra rb : ℕ} (Qa : Matrix (Fin d) (Fin ra) ℝ)
    (Qb : Matrix (Fin d) (Fin rb) ℝ) : Matrix (Fin ra) (Fin rb) ℝ :=
  Qaᵀ * Qb

/-- `sv` is a possible output of `np.linalg.svd(G, compute_uv=False)`:
`min k l` singular values together with orthonormal-column factors such that
`G = U @ diag(sv) @ Vᵀ`. -/
def IsSVDOf {k l : ℕ} (G : Matrix (Fin k) (Fin l) ℝ) (sv : List ℝ) : Prop :=
  sv.length = min k l ∧
  ∃ (p : ℕ) (s : Fin p → ℝ), List.ofFn s = sv ∧
    ∃ U : Matrix (Fin k) (Fin p) ℝ, ∃ V : Matrix (Fin l) (Fin p) ℝ,
      Uᵀ * U = 1 ∧ Vᵀ * V = 1 ∧ G = U * Matrix.diagonal s * Vᵀ

theorem le_foldr_max (l : List ℝ) (x : ℝ) (hx : x ∈ l) : x ≤ l.foldr max 0 := by
  induction l with
  | nil => simp at hx
  | cons y rest ih =>
    rcases List.mem_cons.mp hx with rfl | hx
    · exact le_max_left _ _
    · exact le_trans (ih hx) (le_max_right _ _)

theorem foldr_max_attained (l : List ℝ) (hne : l ≠ []) :
    ∃ x ∈ l, l.foldr max 0 = x ∨ l.foldr max 0 = 0 := by
  induction l with
  | nil => exact absurd rfl hne
  | cons y rest ih =>
    cases rest with
    | nil => exact ⟨y, List.mem_cons_self y [], by rcases max_choice y 0 with h | h <;> simp [h]⟩
    | cons z t =>
      obtain ⟨x, hx, hmax⟩ := ih (List.cons_ne_nil z t)
      rcases max_choice y ((z :: t).foldr max 0) with h | h
      · exact ⟨y, List.mem_cons_self _ _, Or.inl h⟩
      · refine ⟨x, List.mem_cons_of_mem y hx, ?_⟩
        have hfold : (y :: z :: t).foldr max 0 = (z :: t).foldr max 0 := h
        rw [hfold]
        exact hmax

theorem maxAbsList_nonneg (sv : List ℝ) : 0 ≤ maxAbsList sv :=
  foldr_max_nonneg _

theorem abs_le_maxAbsList (sv : List ℝ) (x : ℝ) (hx : x ∈ sv) :
    |x| ≤ maxAbsList sv :=
  le_foldr_max _ _ (List.mem_map_of_mem _ hx)

theorem maxAbsList_attained (sv : List ℝ) (hne : sv ≠ []) :
    ∃ x ∈ sv, maxAbsList sv = |x| := by
  obtain ⟨m, hm, hcase⟩ := foldr_max_attained (sv.map fun x => |x|)
    (by simpa using hne)
  obtain ⟨x, hx, rfl⟩ := List.mem_map.mp hm
  rcases hcase with h | h
  · exact ⟨x, hx, h⟩
  · refine ⟨x, hx, le_antisymm ?_ ?_⟩
    · show (sv.map fun v => |v|).foldr max 0 ≤ |x|
      rw [h]
      exact abs_nonneg x
    · exact abs_le_maxAbsList sv x hx

/-! #### The largest singular value as the operator bound of the matrix -/

theorem dotProduct_self_nonneg {p : ℕ} (x : Fin p → ℝ) : 0 ≤ x ⬝ᵥ x :=
  Finset.sum_nonneg fun i _ => mul_self_nonneg (x i)

theorem mulVec_orthonormal_dot {a b : ℕ} (U : Matrix (Fin a) (Fin b) ℝ)
    (hU : Uᵀ * U = 1) (y : Fin b → ℝ) :
    (U *ᵥ y) ⬝ᵥ (U *ᵥ y) = y ⬝ᵥ y := by
  rw [Matrix.dotProduct_mulVec, ← Matrix.mulVec_transpose, Matrix.mulVec_mulVec,
    hU, Matrix.one_mulVec]

theorem transpose_mulVec_dot_le {a b : ℕ} (V : Matrix (Fin a) (Fin b) ℝ)
    (hV : Vᵀ * V = 1) (x : Fin a → ℝ) :
    (Vᵀ *ᵥ x) ⬝ᵥ (Vᵀ *ᵥ x) ≤ x ⬝ᵥ x := by
  set y := Vᵀ *ᵥ x with hy
  set w := V *ᵥ y with hw
  have hww : w ⬝ᵥ w = y ⬝ᵥ y := mulVec_orthonormal_dot V hV y
  have hxw : x ⬝ᵥ w = y ⬝ᵥ y := by
    rw [hw, Matrix.dotProduct_mulVec, ← Matrix.mulVec_transpose, ← hy]
  have hwx : w ⬝ᵥ x = y ⬝ᵥ y := by rw [Matrix.dotProduct_comm]; exact hxw
  have hnn : 0 ≤ (x - w) ⬝ᵥ (x - w) := dotProduct_self_nonneg _
  rw [Matrix.sub_dotProduct, Matrix.dotProduct_sub, Matrix.dotProduct_sub,
    hxw, hwx, hww] at hnn
  linarith

theorem diagonal_mulVec_dot_le {p : ℕ} (s : Fin p → ℝ) (c : ℝ)
    (hc : ∀ i, |s i| ≤ c) (y : Fin p → ℝ) :
    (Matrix.diagonal s *ᵥ y) ⬝ᵥ (Matrix.diagonal s *ᵥ y) ≤ c ^ 2 * (y ⬝ᵥ y) := by
  have hterm : ∀ i : Fin p,
      (Matrix.diagonal s *ᵥ y) i * (Matrix.diagonal s *ᵥ y) i ≤
        c ^ 2 * (y i * y i) := by
    intro i
    rw [Matrix.mulVec_diagonal]
    have h1 : s i * y i * (s i * y i) = s i ^ 2 * (y i * y i) := by ring
    rw [h1]
    apply mul_le_mul_of_nonneg_right _ (mul_self_nonneg (y i))
    rw [← sq_abs (s i)]
    exact pow_le_pow_left₀ (abs_nonneg _) (hc i) 2
  calc (Matrix.diagonal s *ᵥ y) ⬝ᵥ (Matrix.diagonal s *ᵥ y)
      = ∑ i, (Matrix.diagonal s *ᵥ y) i * (Matrix.diagonal s *ᵥ y) i := rfl
    _ ≤ ∑ i, c ^ 2 * (y i * y i) := Finset.sum_le_sum fun i _ => hterm i
    _ = c ^ 2 * (y ⬝ᵥ y) := by rw [← Finset.mul_sum]; rfl

/-- `c` bounds the quadratic form of `G` and is attained on a unit vector:
the defining property of the largest singular value. -/
def singularBound {k l : ℕ} (G : Matrix (Fin k) (Fin l) ℝ) (c : ℝ) : Prop :=
  0 ≤ c ∧
  (∀ x : Fin l → ℝ, (G *ᵥ x) ⬝ᵥ (G *ᵥ x) ≤ c ^ 2 * (x ⬝ᵥ x)) ∧
  ∃ x : Fin l → ℝ, x ⬝ᵥ x = 1 ∧ (G *ᵥ x) ⬝ᵥ (G *ᵥ x) = c ^ 2

theorem singularBound_unique {k l : ℕ} (G : Matrix (Fin k) (Fin l) ℝ)
    (c c' : ℝ) (h : singularBound G c) (h' : singularBound G c') : c = c' := by
  obtain ⟨hc, hb, x, hx1, hx2⟩ := h
  obtain ⟨hc', hb', x', hx1', hx2'⟩ := h'
  have h1 : c ^ 2 ≤ c' ^ 2 := by
    have hx := hb' x
    rw [hx2, hx1] at hx
    linarith
  have h2 : c' ^ 2 ≤ c ^ 2 := by
    have hx := hb x'
    rw [hx2', hx1'] at hx
    linarith
  have h3 : c ^ 2 = c' ^ 2 := le_antisymm h1 h2
  calc c = Real.sqrt (c ^ 2) := (Real.sqrt_sq hc).symm
    _ = Real.sqrt (c' ^ 2) := by rw [h3]
    _ = c' := Real.sqrt_sq hc'

theorem isSVDOf_singularBound {k l : ℕ} (G : Matrix (Fin k) (Fin l) ℝ)
    (sv : List ℝ) (h : IsSVDOf G sv) (hne : sv ≠ []) :
    singularBound G (maxAbsList sv) := by
  obtain ⟨hlen, p, s, hofn, U, V, hU, hV, hG⟩ := h
  have hmem : ∀ i : Fin p, s i ∈ sv := by
    intro i
    rw [← hofn]
    exact (List.mem_ofFn s (s i)).mpr ⟨i, rfl⟩
  refine ⟨maxAbsList_nonneg sv, ?_, ?_⟩
  · intro x
    rw [hG, ← Matrix.mulVec_mulVec, ← Matrix.mulVec_mulVec,
      mulVec_orthonormal_dot U hU]
    calc (Matrix.diagonal s *ᵥ (Vᵀ *ᵥ x)) ⬝ᵥ (Matrix.diagonal s *ᵥ (Vᵀ *ᵥ x))
        ≤ maxAbsList sv ^ 2 * ((Vᵀ *ᵥ x) ⬝ᵥ (Vᵀ *ᵥ x)) :=
          diagonal_mulVec_dot_le _ _
            (fun i => abs_le_maxAbsList sv _ (hmem i)) _
      _ ≤ maxAbsList sv ^ 2 * (x ⬝ᵥ x) :=
          mul_le_mul_of_nonneg_left (transpose_mulVec_dot_le V hV x) (sq_nonneg _)
  · obtain ⟨xval, hxmem, hxeq⟩ := maxAbsList_attained sv hne
    rw [← hofn] at hxmem
    obtain ⟨idx, hidx⟩ := Set.mem_range.mp ((List.mem_ofFn s xval).mp hxmem)
    refine ⟨V *ᵥ Pi.single idx 1, ?_, ?_⟩
    · rw [mulVec_orthonormal_dot V hV]
      simp [Matrix.dotProduct, Pi.single_apply]
    · rw [hG, ← Matrix.mulVec_mulVec, ← Matrix.mulVec_mulVec,
        Matrix.mulVec_mulVec (Pi.single idx 1) Vᵀ V, hV, Matrix.one_mulVec,
        mulVec_orthonormal_dot U hU]
      have hsum : (Matrix.diagonal s *ᵥ Pi.single idx 1) ⬝ᵥ
          (Matrix.diagonal s *ᵥ Pi.single idx 1) = s idx * s idx := by
        unfold Matrix.dotProduct
        rw [Finset.sum_eq_single idx]
        · rw [Matrix.mulVec_diagonal]
          simp
        · intro b _ hb
          rw [Matrix.mulVec_diagonal]
          simp [Pi.single_apply, hb]
        · intro hidx2
          exact absurd (Finset.mem_univ idx) hidx2
      rw [hsum, hidx, hxeq, sq_abs]
      ring

theorem isSVDOf_transpose {k l : ℕ} (G : Matrix (Fin k) (Fin l) ℝ)
    (sv : List ℝ) (h : IsSVDOf G sv) : IsSVDOf Gᵀ sv := by
  obtain ⟨hlen, p, s, hofn, U, V, hU, hV, hG⟩ := h
  refine ⟨by rw [hlen, Nat.min_comm], p, s, hofn, V, U, hV, hU, ?_⟩
  rw [hG, Matrix.transpose_mul, Matrix.transpose_mul, Matrix.transpose_transpose,
    Matrix.diagonal_transpose, Matrix.mul_assoc]

theorem svd_transpose_maxAbs_eq {k l : ℕ} (G : Matrix (Fin k) (Fin l) ℝ)
    (sva svb : List ℝ) (ha : IsSVDOf G sva) (hb : IsSVDOf Gᵀ svb)
    (hne : sva ≠ []) (hne' : svb ≠ []) :
    maxAbsList sva = maxAbsList svb :=
  singularBound_unique Gᵀ _ _
    (isSVDOf_singularBound Gᵀ sva (isSVDOf_transpose G sva ha) hne)
    (isSVDOf_singularBound Gᵀ svb hb hne')

theorem principal_angle_bounds (sv : List ℝ) :
    0 ≤ principal_angle_degrees sv ∧ principal_angle_degrees sv ≤ 90 := by
  unfold principal_angle_degrees
  split
  · norm_num
  · have hc0 : 0 ≤ clip (maxAbsList sv) (-1) 1 := by
      unfold clip
      have h1 : 0 ≤ max (maxAbsList sv) (-1) :=
        le_trans (maxAbsList_nonneg sv) (le_max_left _ _)
      exact le_min h1 (by norm_num)
    have hpi : 0 < Real.pi := Real.pi_pos
    constructor
    · apply mul_nonneg (Real.arccos_nonneg _)
      positivity
    · have harc : Real.arccos (clip (maxAbsList sv) (-1) 1) ≤ Real.pi / 2 := by
        rw [Real.arccos_eq_pi_div_two_sub_arcsin]
        have h2 : 0 ≤ Real.arcsin (clip (maxAbsList sv) (-1) 1) :=
          Real.arcsin_nonneg.mpr hc0
        linarith
      calc Real.arccos (clip (maxAbsList sv) (-1) 1) * (180 / Real.pi)
          ≤ Real.pi / 2 * (180 / Real.pi) := by
            apply mul_le_mul_of_nonneg_right harc
            positivity
        _ = 90 := by field_simp; ring

/-- C6: the angle computation is symmetric and bounded. The retained bases
`Qa`, `Qb` are fixed by the deterministic orthonormalization of `A` and `B`,
the run on `(A, B)` takes the singular values of `gram Qa Qb`, the run on
`(B, A)` those of `gram Qb Qa = (gram Qa Qb)ᵀ`; for any singular value lists
`np.linalg.svd` can return for the two Gram matrices, the two angles coincide
exactly, and the angle always lies in `[0, 90]` degrees. -/
theorem C6_angle_symmetry_bounds {d ra rb : ℕ} (Qa : Matrix (Fin d) (Fin ra) ℝ)
    (Qb : Matrix (Fin d) (Fin rb) ℝ) (sva svb : List ℝ)
    (ha : IsSVDOf (gram Qa Qb) sva) (hb : IsSVDOf (gram Qb Qa) svb) :
    principal_angle_degrees sva = principal_angle_degrees svb ∧
    0 ≤ principal_angle_degrees sva ∧ principal_angle_degrees sva ≤ 90 := by
  have hgram : gram Qb Qa = (gram Qa Qb)ᵀ := by
    unfold gram
    rw [Matrix.transpose_mul, Matrix.transpose_transpose]
  have hlen : svb.length = sva.length := by
    rw [ha.1, hb.1, Nat.min_comm]
  refine ⟨?_, principal_angle_bounds sva⟩
  by_cases hne : sva = []
  · have hbe : svb = [] := by
      rw [← List.length_eq_zero, hlen, hne]
      rfl
    rw [hne, hbe]
  · have hbe : svb ≠ [] := by
      intro hb0
      rw [hb0] at hlen
      exact hne (List.length_eq_zero.mp hlen.symm)
    rw [hgram] at hb
    have hmax := svd_transpose_maxAbs_eq (gram Qa Qb) sva svb ha hb hne hbe
    have h1 : ¬ (sva.isEmpty = true) := by simp [hne]
    have h2 : ¬ (svb.isEmpty = true) := by simp [hbe]
    unfold principal_angle_degrees
    rw [if_neg h1, if_neg h2, hmax]

theorem C6_angle_symmetry_bounds_witness :
    principal_angle_degrees [1] = principal_angle_degrees [1] ∧
    0 ≤ principal_angle_degrees [1] ∧ principal_angle_degrees [1] ≤ 90 := by
  have hsvd : IsSVDOf (gram (1 : Matrix (Fin 1) (Fin 1) ℝ)
      (1 : Matrix (Fin 1) (Fin 1) ℝ)) [1] := by
    refine ⟨rfl, 1, (fun _ => 1), rfl, 1, 1, by simp, by simp, ?_⟩
    rw [Matrix.diagonal_one, Matrix.transpose_one, Matrix.mul_one, Matrix.one_mul]
    unfold gram
    rw [Matrix.transpose_one, Matrix.one_mul]
  exact C6_angle_symmetry_bounds (1 : Matrix (Fin 1) (Fin 1) ℝ)
    (1 : Matrix (Fin 1) (Fin 1) ℝ) [1] [1] hsvd hsvd

/-! ### The full `principal_angle_degrees(cu, ss)` pipeline -/

/-- The cross Gram matrix at the list level, as formed between the retained
bases inside `principal_angle_degrees` (line 117). -/
noncomputable def gramList {d : ℕ} (ba bb : List (Fin d → ℝ)) : List (List ℝ) :=
  ba.map fun u => bb.map fun v => ∑ i, u i * v i

/-- The `DegenerateSubspace` failure of the analyzer. -/
inductive SubspaceError where
  | degenerateSubspace
deriving DecidableEq

/-- `principal_angle_degrees(cu, ss)` as the full pipeline (lines 113-122):
orthonormalize both inputs (either call may raise `DegenerateSubspace`), form
the cross Gram matrix of the retained bases, take its singular values from
`np.linalg.svd` (an oracle parameter), and convert to an angle, answering
`90.0` when the singular-value list is empty. -/
noncomputable def minimalPrincipalAngle {d na nb : ℕ} (epsA : ℝ)
    (qa : Matrix (Fin d) (Fin na) ℝ) (ra : Matrix (Fin na) (Fin na) ℝ)
    (epsB : ℝ) (qb : Matrix (Fin d) (Fin nb) ℝ) (rb : Matrix (Fin nb) (Fin nb) ℝ)
    (svdOracle : List (List ℝ) → List ℝ) : Except SubspaceError ℝ :=
  match orthonormal_basis epsA qa ra, orthonormal_basis epsB qb rb with
  | none, _ => Except.error SubspaceError.degenerateSubspace
  | some _, none => Except.error SubspaceError.degenerateSubspace
  | some ba, some bb =>
      Except.ok (principal_angle_degrees (svdOracle (gramList ba bb)))

/-- `orthonormal_basis` fails whenever every QR diagonal factor is within
tolerance, i.e. when orthogonalization would retain zero columns. -/
theorem orthonormal_basis_none_of_all_le {m n : ℕ} (eps : ℝ)
    (q : Matrix (Fin m) (Fin n) ℝ) (r : Matrix (Fin n) (Fin n) ℝ)
    (h : ∀ j : Fin n, |r j j| ≤ qrKeepTol m eps r) :
    orthonormal_basis eps q r = none := by
  have hkept : keptIndices r (qrKeepTol m eps r) = [] := by
    rw [List.eq_nil_iff_forall_not_mem]
    intro j hj
    rw [mem_keptIndices_iff] at hj
    exact absurd hj (not_lt.mpr (h j))
  simp only [orthonormal_basis]
  rw [if_pos hkept]

/-- A basis returned by `orthonormal_basis` retains at least one column. -/
theorem orthonormal_basis_ne_nil {m n : ℕ} (eps : ℝ)
    (q : Matrix (Fin m) (Fin n) ℝ) (r : Matrix (Fin n) (Fin n) ℝ)
    (bs : List (Fin m → ℝ)) (h : orthonormal_basis eps q r = some bs) :
    bs ≠ [] := by
  simp only [orthonormal_basis] at h
  by_cases hk : keptIndices r (qrKeepTol m eps r) = []
  · rw [if_pos hk] at h
    exact Option.noConfusion h
  · rw [if_neg hk] at h
    injection h with h2
    intro hnil
    rw [← h2] at hnil
    exact hk (List.map_eq_nil_iff.mp hnil)

/-- C9 (amended): the svd-empty guard of `principal_angle_degrees` does
return exactly 90°; but when orthogonalization retains zero columns for
either of the two bases (every QR diagonal factor within tolerance),
`orthonormal_basis` raises `DegenerateSubspace` first, so the pipeline fails
rather than returning 90. Moreover, on every success path both retained
bases are nonempty, so the cross Gram matrix has `min(ra, rb) ≥ 1` singular
values under the `np.linalg.svd` length law and the 90° branch is never
taken: the answer always comes from the arccos branch. -/
theorem C9_degenerate_fails_not_ninety {d na nb : ℕ} (epsA epsB : ℝ)
    (qa : Matrix (Fin d) (Fin na) ℝ) (ra : Matrix (Fin na) (Fin na) ℝ)
    (qb : Matrix (Fin d) (Fin nb) ℝ) (rb : Matrix (Fin nb) (Fin nb) ℝ)
    (svdOracle : List (List ℝ) → List ℝ) :
    ((∀ j : Fin na, |ra j j| ≤ qrKeepTol d epsA ra) ∨
      (∀ j : Fin nb, |rb j j| ≤ qrKeepTol d epsB rb) →
      minimalPrincipalAngle epsA qa ra epsB qb rb svdOracle =
        Except.error SubspaceError.degenerateSubspace) ∧
    principal_angle_degrees [] = 90 ∧
    (∀ ba bb, orthonormal_basis epsA qa ra = some ba →
      orthonormal_basis epsB qb rb = some bb →
      (svdOracle (gramList ba bb)).length = min ba.length bb.length →
      svdOracle (gramList ba bb) ≠ [] ∧
      minimalPrincipalAngle epsA qa ra epsB qb rb svdOracle =
        Except.ok (Real.arccos
          (clip (maxAbsList (svdOracle (gramList ba bb))) (-1) 1) *
          (180 / Real.pi))) := by
  refine ⟨?_, by simp [principal_angle_degrees], ?_⟩
  · intro hcollapse
    rcases hcollapse with hA | hB
    · have hnone : orthonormal_basis epsA qa ra = none :=
        orthonormal_basis_none_of_all_le epsA qa ra hA
      unfold minimalPrincipalAngle
      rw [hnone]
    · have hnone : orthonormal_basis epsB qb rb = none :=
        orthonormal_basis_none_of_all_le epsB qb rb hB
      cases horb : orthonormal_basis epsA qa ra with
      | none =>
        unfold minimalPrincipalAngle
        rw [horb]
      | some ba =>
        unfold minimalPrincipalAngle
        rw [horb, hnone]
  · intro ba bb hba hbb hlen
    have hbane : ba ≠ [] := orthonormal_basis_ne_nil epsA qa ra ba hba
    have hbbne : bb ≠ [] := orthonormal_basis_ne_nil epsB qb rb bb hbb
    have hsvne : svdOracle (gramList ba bb) ≠ [] := by
      intro h0
      rw [h0] at hlen
      have h1 : 0 < ba.length := List.length_pos.mpr hbane
      have h2 : 0 < bb.length := List.length_pos.mpr hbbne
      simp at hlen
      omega
    refine ⟨hsvne, ?_⟩
    unfold minimalPrincipalAngle
    rw [hba, hbb]
    show Except.ok (principal_angle_degrees (svdOracle (gramList ba bb))) = _
    have hpa : principal_angle_degrees (svdOracle (gramList ba bb)) =
        Real.arccos (clip (maxAbsList (svdOracle (gramList ba bb))) (-1) 1) *
          (180 / Real.pi) := by
      unfold principal_angle_degrees
      rw [if_neg (by simp [hsvne])]
    rw [hpa]

/-- C9 counterexample: with `cu` the zero matrix (QR diagonal all zero, every
column dropped), the pipeline raises `DegenerateSubspace` — it does not
return `90°`, contradicting "returns exactly 90 degrees rather than
failing". -/
theorem C9_counterexample :
    minimalPrincipalAngle 0 (0 : Matrix (Fin 2) (Fin 1) ℝ) 0 0
      (0 : Matrix (Fin 2) (Fin 1) ℝ) !![(1 : ℝ)] (fun _ => []) =
      Except.error SubspaceError.degenerateSubspace ∧
    (Except.error SubspaceError.degenerateSubspace : Except SubspaceError ℝ) ≠
      Except.ok 90 := by
  constructor
  · have hkept : keptIndices (0 : Matrix (Fin 1) (Fin 1) ℝ)
        (qrKeepTol 2 0 (0 : Matrix (Fin 1) (Fin 1) ℝ)) = [] := by
      rw [List.eq_nil_iff_forall_not_mem]
      intro j hj
      rw [mem_keptIndices_iff] at hj
      simp [qrKeepTol] at hj
    have hnone : orthonormal_basis 0 (0 : Matrix (Fin 2) (Fin 1) ℝ)
        (0 : Matrix (Fin 1) (Fin 1) ℝ) = none := by
      simp only [orthonormal_basis]
      rw [if_pos hkept]
    unfold minimalPrincipalAngle
    rw [hnone]
  · exact fun hcontra => Except.noConfusion hcontra

theorem C9_degenerate_fails_not_ninety_witness :
    minimalPrincipalAngle 0 !![(1 : ℝ); 0] !![(1 : ℝ)] 0
      (0 : Matrix (Fin 2) (Fin 1) ℝ) 0 (fun _ => []) =
      Except.error SubspaceError.degenerateSubspace :=
  (C9_degenerate_fails_not_ninety 0 0 !![(1 : ℝ); 0] !![(1 : ℝ)]
    (0 : Matrix (Fin 2) (Fin 1) ℝ) 0 (fun _ => [])).1
    (Or.inr (by intro j; simp [qrKeepTol]))

end Fork
